import Mathlib

/-!
Shallow embedding of the text-processing core of `src/app.py` (TexTra):
`analyze_text`, `split_into_sentences`, `fallback_summarize`, `summarize_text`
and `extract_topics`, together with theorems settling the specification
claims about them.

Strings are modelled as `List Char`; Python's whitespace and word-character
classes are modelled over the ASCII fragment; `Counter` is modelled as an
insertion-ordered association list; Python's stable `sorted` is modelled by
the stable `List.insertionSort`; floating-point sentence scores are idealised
as `ℚ`.
Sentence/topic counts are modelled as `Nat` (the UI sliders only produce
values 1–10).
-/

namespace TexTra

/-- Python whitespace (`str.split()`, `str.strip()`, regex `\s`), ASCII fragment. -/
def pyIsSpace (c : Char) : Bool :=
  c = ' ' || c = '\t' || c = '\n' || c = '\x0d' || c = '\x0b' || c = '\x0c'

/-- Python regex `\w` (word character), ASCII fragment. -/
def pyIsWordChar (c : Char) : Bool :=
  c.isAlphanum || c = '_'

/-- Python `str.lower()` applied characterwise. -/
def lowerList (l : List Char) : List Char :=
  l.map Char.toLower

/-- Python `str.strip()`: remove leading and trailing whitespace. -/
def pyStrip (l : List Char) : List Char :=
  ((l.dropWhile pyIsSpace).reverse.dropWhile pyIsSpace).reverse

/-- Auxiliary for `splitWs`: `cur` is the reversed current token. -/
def splitWsAux : List Char → List Char → List (List Char)
  | cur, [] => if cur.isEmpty then [] else [cur.reverse]
  | cur, c :: rest =>
    if pyIsSpace c then
      if cur.isEmpty then splitWsAux [] rest else cur.reverse :: splitWsAux [] rest
    else
      splitWsAux (c :: cur) rest

/-- Python `str.split()` with no argument: split on whitespace runs, dropping
empty pieces. -/
def splitWs (l : List Char) : List (List Char) :=
  splitWsAux [] l

/-- Python `" ".join(...)`. -/
def joinSp : List (List Char) → List Char
  | [] => []
  | [s] => s
  | s :: rest => s ++ ' ' :: joinSp rest

/-- One `Counter` update: increment the count of `w`, appending a fresh key at
the end on first occurrence (Python dicts preserve insertion order). -/
def counterInc : List (List Char × Nat) → List Char → List (List Char × Nat)
  | [], w => [(w, 1)]
  | (k, m) :: rest, w =>
    if k = w then (k, m + 1) :: rest else (k, m) :: counterInc rest w

/-- `collections.Counter` built over a token list, keys in first-occurrence order. -/
def buildCounter (ws : List (List Char)) : List (List Char × Nat) :=
  ws.foldl counterInc []

/-- `Counter` lookup (`counter[w]`), defaulting to 0 for absent keys. -/
def counterGet (c : List (List Char × Nat)) (w : List Char) : Nat :=
  match c.find? (fun p => p.1 == w) with
  | some p => p.2
  | none => 0

/-! ### `analyze_text` (src/app.py lines 45–67) -/

structure AnalyzeResult where
  totalWords : Nat
  totalCharacters : Nat
  totalSentences : Nat
  singleRepeated : Nat
  doubleRepeated : Nat
  tripleRepeated : Nat
deriving DecidableEq

/-- `[word.lower() for word in text.split()]`. -/
def analyzeWords (text : List Char) : List (List Char) :=
  (splitWs text).map lowerList

/-- `re.split(r'[.!?]', text)`: split at every `.`, `!` or `?`, keeping empty
pieces (they are filtered afterwards). -/
def splitPunct : List Char → List (List Char)
  | [] => [[]]
  | c :: rest =>
    if c = '.' || c = '!' || c = '?' then
      [] :: splitPunct rest
    else
      match splitPunct rest with
      | [] => [[c]]
      | piece :: more => (c :: piece) :: more

/-- `[s.strip() for s in sentences if s.strip()]` over the coarse split. -/
def coarseSentences (text : List Char) : List (List Char) :=
  ((splitPunct text).map pyStrip).filter (fun s => !s.isEmpty)

/-- `Counter(words)` inside `analyze_text`. -/
def analyzeWordFreq (text : List Char) : List (List Char × Nat) :=
  buildCounter (analyzeWords text)

/-- `analyze_text` from src/app.py. -/
def analyze_text (text : List Char) : AnalyzeResult :=
  { totalWords := (analyzeWords text).length
    totalCharacters := text.length
    totalSentences := (coarseSentences text).length
    singleRepeated := (analyzeWordFreq text).countP (fun p => p.2 == 2)
    doubleRepeated := (analyzeWordFreq text).countP (fun p => p.2 == 3)
    tripleRepeated := (analyzeWordFreq text).countP (fun p => p.2 == 4) }

/-! ### `split_into_sentences` (src/app.py lines 109–112) -/

/-- The boundary test of `re.split(r'(?<!\w\.\w.)(?<![A-Z][a-z]\.)(?<=\.|\?|\!)\s', text)`
at a whitespace character; `prev` is the reversed list of the characters
preceding it. -/
def boundaryOk (prev : List Char) : Bool :=
  (match prev with
   | p1 :: _ => p1 = '.' || p1 = '?' || p1 = '!'
   | [] => false) &&
  !(match prev with
    | _ :: p2 :: p3 :: p4 :: _ => pyIsWordChar p4 && p3 = '.' && pyIsWordChar p2
    | _ => false) &&
  !(match prev with
    | p1 :: p2 :: p3 :: _ => p3.isUpper && p2.isLower && p1 = '.'
    | _ => false)

/-- Scanner for the sentence-splitting regex: `prev` is the reversed context,
`cur` the reversed current piece. -/
def splitSentAux : List Char → List Char → List Char → List (List Char)
  | _, cur, [] => [cur.reverse]
  | prev, cur, c :: rest =>
    if pyIsSpace c && boundaryOk prev then
      cur.reverse :: splitSentAux (c :: prev) [] rest
    else
      splitSentAux (c :: prev) (c :: cur) rest

/-- `split_into_sentences` from src/app.py. -/
def split_into_sentences (text : List Char) : List (List Char) :=
  ((splitSentAux [] [] text).map pyStrip).filter (fun s => !s.isEmpty)

/-! ### `fallback_summarize` (src/app.py lines 114–147) -/

/-- `re.sub(r'[^\w\s]', '', s.lower())` for each sentence. -/
def processedSentences (text : List Char) : List (List Char) :=
  (split_into_sentences text).map
    (fun s => (lowerList s).filter (fun c => pyIsWordChar c || pyIsSpace c))

/-- The global word-frequency `Counter` of `fallback_summarize`. -/
def fallbackWordFreq (text : List Char) : List (List Char × Nat) :=
  buildCounter ((processedSentences text).map splitWs).flatten

/-- The per-sentence score: sum of the global frequencies of the sentence's
tokens, divided by the token count when that count is positive. -/
def sentenceScore (freq : List (List Char × Nat)) (s : List Char) : ℚ :=
  let toks := splitWs s
  let total : Nat := (toks.map (counterGet freq)).sum
  if 0 < toks.length then (total : ℚ) / (toks.length : ℚ) else (total : ℚ)

/-- `sentence_scores = [(i, score_i) for i, sentence in enumerate(processed_sentences)]`. -/
def sentence_scores (text : List Char) : List (Nat × ℚ) :=
  (processedSentences text).enum.map
    (fun p => (p.1, sentenceScore (fallbackWordFreq text) p.2))

/-- `sorted(..., key=lambda x: x[1], reverse=True)` comparison (stable
descending by score). Python's `sorted` is a stable sort, and stable sorting
by a total preorder has a unique result, here realised by
`List.insertionSort`. -/
def scoreDescR (a b : Nat × ℚ) : Prop :=
  b.2 ≤ a.2

instance : DecidableRel scoreDescR :=
  fun a b => inferInstanceAs (Decidable (b.2 ≤ a.2))

instance : IsTotal (Nat × ℚ) scoreDescR :=
  ⟨fun a b => le_total b.2 a.2⟩

instance : IsTrans (Nat × ℚ) scoreDescR :=
  ⟨fun _ _ _ h1 h2 => le_trans h2 h1⟩

/-- `sorted(..., key=lambda x: x[0])` comparison (ascending by original index). -/
def idxR (a b : Nat × ℚ) : Prop :=
  a.1 ≤ b.1

instance : DecidableRel idxR :=
  fun a b => inferInstanceAs (Decidable (a.1 ≤ b.1))

instance : IsTotal (Nat × ℚ) idxR :=
  ⟨fun a b => Nat.le_total a.1 b.1⟩

instance : IsTrans (Nat × ℚ) idxR :=
  ⟨fun _ _ _ h1 h2 => le_trans h1 h2⟩

/-- `top_sentences` after both sorts: stable-descending by score, truncate to
`n`, then re-sort ascending by original index. -/
def topSentences (text : List Char) (n : Nat) : List (Nat × ℚ) :=
  (((sentence_scores text).insertionSort scoreDescR).take n).insertionSort idxR

/-- `fallback_summarize` from src/app.py. -/
def fallback_summarize (text : List Char) (n : Nat) : List Char :=
  if (split_into_sentences text).length ≤ n then
    joinSp (split_into_sentences text)
  else
    joinSp ((topSentences text n).map
      (fun p => (split_into_sentences text).getD p.1 []))

/-- The original-index sequence of the sentences emitted by `fallback_summarize`,
in emission order. -/
def fallbackSelected (text : List Char) (n : Nat) : List Nat :=
  if (split_into_sentences text).length ≤ n then
    List.range (split_into_sentences text).length
  else
    (topSentences text n).map Prod.fst

/-! ### `summarize_text` (src/app.py lines 149–157) -/

/-- The index sequence selected by the primary strategy for a given score list:
top `n` scores (stable descending), re-sorted by original index. -/
def primarySelected (count : Nat) (scores : List ℚ) (n : Nat) : List Nat :=
  if count ≤ n then
    List.range count
  else
    (((scores.enum.insertionSort scoreDescR).take n).insertionSort idxR).map Prod.fst

/-- Modelled from the spec: the primary strategy (§4.3) is the external sumy
`LsaSummarizer`, whose code is not part of this repository. Per the spec it
scores the sentences of its own segmentation by a rank-reducing decomposition,
selects the `n` highest-scoring sentences, and emits them in original document
order joined by single spaces; when `n` is at least the sentence count it emits
all sentences. The decomposition is abstracted as an arbitrary score list. -/
def primary_summarize (sents : List (List Char)) (scores : List ℚ) (n : Nat) : List Char :=
  joinSp ((primarySelected sents.length scores n).map (fun i => sents.getD i []))

/-- `summarize_text` from src/app.py: tries the external primary summarizer and
falls back to `fallback_summarize` on any exception. The primary's outcome is
abstracted as an `Option`: `some (sents, scores)` when sumy succeeds with its
own sentence segmentation and decomposition scores, `none` when it raises. -/
def summarize_text (primary : Option (List (List Char) × List ℚ))
    (text : List Char) (n : Nat) : List Char :=
  match primary with
  | some p => primary_summarize p.1 p.2 n
  | none => fallback_summarize text n

/-! ### `extract_topics` (src/app.py lines 160–186) -/

/-- The stop-word list of `extract_topics` (the Python source builds a `set`
from exactly these literals; `"are"` appears twice there, which does not
change membership). -/
def stop_words : List (List Char) :=
  (["the", "and", "is", "in", "of", "for", "a", "an", "to", "with",
    "on", "at", "by", "from", "as", "are", "be", "this", "that", "it",
    "they", "we", "you", "he", "she", "them", "his", "her", "its", "their",
    "our", "your", "my", "mine", "yours", "ours", "theirs", "him", "hers",
    "us", "me", "i", "have", "has", "had", "do", "does", "did", "can",
    "could", "may", "might", "must", "will", "would", "should", "am",
    "are", "was", "were", "been", "being", "get", "gets", "got", "getting"] :
    List String).map String.data

/-- `processed_text.split()` after lowercasing and removing punctuation. -/
def topicWords (text : List Char) : List (List Char) :=
  splitWs ((lowerList text).filter (fun c => pyIsWordChar c || pyIsSpace c))

/-- `Counter(words)` inside `extract_topics`. -/
def topicWordFreq (text : List Char) : List (List Char × Nat) :=
  buildCounter (topicWords text)

/-- `word not in stop_words and len(word) > 2`. -/
def isQualifying (w : List Char) : Bool :=
  decide (w ∉ stop_words) && decide (2 < w.length)

/-- The filtered frequency table (dict-comprehension order preserved). -/
def filteredWordFreq (text : List Char) : List (List Char × Nat) :=
  (topicWordFreq text).filter (fun p => isQualifying p.1)

/-- `Counter.most_common(n)` comparison: stable descending by count
(`heapq.nlargest` is documented as `sorted(..., reverse=True)[:n]`, a stable
descending sort followed by truncation). -/
def freqDescR (a b : List Char × Nat) : Prop :=
  b.2 ≤ a.2

instance : DecidableRel freqDescR :=
  fun a b => inferInstanceAs (Decidable (b.2 ≤ a.2))

instance : IsTotal (List Char × Nat) freqDescR :=
  ⟨fun a b => Nat.le_total b.2 a.2⟩

instance : IsTrans (List Char × Nat) freqDescR :=
  ⟨fun _ _ _ h1 h2 => le_trans h2 h1⟩

/-- `extract_topics` from src/app.py. -/
def extract_topics (text : List Char) (k : Nat) : List (List Char) :=
  (((filteredWordFreq text).insertionSort freqDescR).take k).map Prod.fst

/-- The number of distinct qualifying tokens of the document (distinct
normalized tokens that are not stop-words and have length greater than 2). -/
def qualifyingTokenCount (text : List Char) : Nat :=
  ((topicWords text).filter isQualifying).dedup.length

/-! ### Comparison definition for C10 -/

/-- Comparison definition following the specification's alternative reading:
tokens with every non-word character stripped before counting. -/
def strippedWords (text : List Char) : List (List Char) :=
  (splitWs text).map (fun w => (lowerList w).filter pyIsWordChar)

/-- The exactly-twice repetition counter computed over punctuation-stripped
tokens, for comparison with `analyze_text`. -/
def strippedSingleRepeated (text : List Char) : Nat :=
  (buildCounter (strippedWords text)).countP (fun p => p.2 == 2)

/-! ### Concrete documents used by the claims -/

def c7text : List Char :=
  "One two. Three four. Five six.".data

def c8text : List Char :=
  "The cat sat. The cat ran. The dog slept. The cat sat again today.".data

def c9text : List Char :=
  "Hello world. Hello again! Goodbye world.".data

def c10text : List Char :=
  "world world.".data

/-! ### Helper lemmas -/

theorem sorted_le_range (m : Nat) : List.Sorted (· ≤ ·) (List.range m) :=
  (List.pairwise_lt_range m).imp (fun h => Nat.le_of_lt h)

theorem range_map_getD (l : List α) (d : α) :
    (List.range l.length).map (fun i => l.getD i d) = l := by
  induction l with
  | nil => rfl
  | cons a t ih =>
    simp only [List.length_cons, List.range_succ_eq_map, List.map_cons, List.map_map,
      Function.comp_def, List.getD_cons_zero, List.getD_cons_succ]
    exact congrArg (a :: ·) ih

theorem sorted_fst_idx_sort (l : List (Nat × ℚ)) :
    List.Sorted (· ≤ ·) ((l.insertionSort idxR).map Prod.fst) :=
  (List.sorted_insertionSort idxR l).map Prod.fst (fun _ _ hab => hab)

/-! ### Claim theorems -/

/-- C1: for every document and every N ≥ 1, `fallback_summarize` emits the
joined sentences at a non-decreasing sequence of original indices, the primary
strategy (spec-modelled, for any internal segmentation and score list) does
too, and a primary failure routes `summarize_text` to `fallback_summarize`
unchanged. -/
theorem summarize_order_preserved (text : List Char) (n : Nat) (hn : 1 ≤ n) :
    (List.Sorted (· ≤ ·) (fallbackSelected text n)
      ∧ fallback_summarize text n
          = joinSp ((fallbackSelected text n).map
              (fun i => (split_into_sentences text).getD i [])))
    ∧ (∀ sents : List (List Char), ∀ scores : List ℚ,
        List.Sorted (· ≤ ·) (primarySelected sents.length scores n)
          ∧ summarize_text (some (sents, scores)) text n
              = joinSp ((primarySelected sents.length scores n).map
                  (fun i => sents.getD i [])))
    ∧ summarize_text none text n = fallback_summarize text n := by
  refine ⟨?_, ?_, rfl⟩
  · unfold fallbackSelected fallback_summarize
    by_cases h : (split_into_sentences text).length ≤ n
    · rw [if_pos h, if_pos h]
      exact ⟨sorted_le_range _, (congrArg joinSp (range_map_getD _ _)).symm⟩
    · rw [if_neg h, if_neg h]
      refine ⟨sorted_fst_idx_sort _, ?_⟩
      simp [List.map_map, Function.comp_def]
  · intro sents scores
    refine ⟨?_, rfl⟩
    unfold primarySelected
    by_cases h : sents.length ≤ n
    · rw [if_pos h]
      exact sorted_le_range _
    · rw [if_neg h]
      exact sorted_fst_idx_sort _

theorem summarize_order_preserved_witness :
    (1 : Nat) ≤ 1
    ∧ ((List.Sorted (· ≤ ·) (fallbackSelected c7text 1)
        ∧ fallback_summarize c7text 1
            = joinSp ((fallbackSelected c7text 1).map
                (fun i => (split_into_sentences c7text).getD i [])))
      ∧ (∀ sents : List (List Char), ∀ scores : List ℚ,
          List.Sorted (· ≤ ·) (primarySelected sents.length scores 1)
            ∧ summarize_text (some (sents, scores)) c7text 1
                = joinSp ((primarySelected sents.length scores 1).map
                    (fun i => sents.getD i [])))
      ∧ summarize_text none c7text 1 = fallback_summarize c7text 1) :=
  ⟨by decide, summarize_order_preserved c7text 1 (by decide)⟩

/-- C2: if the stricter segmenter yields at most N sentences, the fallback
summarizer returns exactly those sentences joined by single spaces, in order,
with no scoring applied. -/
theorem fallback_small_input (text : List Char) (n : Nat) (hn : 1 ≤ n)
    (h : (split_into_sentences text).length ≤ n) :
    fallback_summarize text n = joinSp (split_into_sentences text) := by
  unfold fallback_summarize
  rw [if_pos h]

theorem fallback_small_input_witness :
    (1 : Nat) ≤ 5
    ∧ (split_into_sentences "Hi there. Bye.".data).length ≤ 5
    ∧ fallback_summarize "Hi there. Bye.".data 5
        = joinSp (split_into_sentences "Hi there. Bye.".data) :=
  ⟨by decide, by decide, fallback_small_input _ 5 (by decide) (by decide)⟩

theorem counterInc_fst (acc : List (List Char × Nat)) (w : List Char) :
    (counterInc acc w).map Prod.fst
      = if w ∈ acc.map Prod.fst then acc.map Prod.fst
        else acc.map Prod.fst ++ [w] := by
  induction acc with
  | nil => simp [counterInc]
  | cons p rest ih =>
    obtain ⟨k, m⟩ := p
    by_cases hk : k = w
    · subst hk
      simp [counterInc]
    · rw [List.map_cons]
      simp only [counterInc, if_neg hk, List.map_cons, ih]
      by_cases hw : w ∈ rest.map Prod.fst
      · rw [if_pos hw, if_pos (List.mem_cons_of_mem k hw)]
      · rw [if_neg hw, if_neg ?_, List.cons_append]
        intro hmem
        rcases List.mem_cons.mp hmem with h | h
        · exact hk h.symm
        · exact hw h

theorem buildCounter_fst_aux (ws : List (List Char)) (acc : List (List Char × Nat))
    (hnd : (acc.map Prod.fst).Nodup) :
    ((ws.foldl counterInc acc).map Prod.fst).Nodup
      ∧ ∀ x, x ∈ (ws.foldl counterInc acc).map Prod.fst
          ↔ x ∈ acc.map Prod.fst ∨ x ∈ ws := by
  induction ws generalizing acc with
  | nil => simpa using hnd
  | cons w ws ih =>
    have hstep_nd : ((counterInc acc w).map Prod.fst).Nodup := by
      rw [counterInc_fst]
      by_cases hw : w ∈ acc.map Prod.fst
      · rwa [if_pos hw]
      · rw [if_neg hw]
        exact hnd.append (List.nodup_singleton w) ((List.disjoint_singleton).mpr hw)
    have hstep_mem : ∀ x, x ∈ (counterInc acc w).map Prod.fst
        ↔ x ∈ acc.map Prod.fst ∨ x = w := by
      intro x
      rw [counterInc_fst]
      by_cases hw : w ∈ acc.map Prod.fst
      · rw [if_pos hw]
        constructor
        · exact fun h => Or.inl h
        · rintro (h | rfl)
          · exact h
          · exact hw
      · rw [if_neg hw]
        simp
    obtain ⟨ihnd, ihmem⟩ := ih (counterInc acc w) hstep_nd
    refine ⟨ihnd, fun x => ?_⟩
    rw [List.foldl_cons, ihmem x, hstep_mem x, List.mem_cons]
    tauto

theorem buildCounter_fst_nodup (ws : List (List Char)) :
    ((buildCounter ws).map Prod.fst).Nodup :=
  (buildCounter_fst_aux ws [] (by simp)).1

theorem mem_buildCounter_fst (ws : List (List Char)) (x : List Char) :
    x ∈ (buildCounter ws).map Prod.fst ↔ x ∈ ws := by
  have h := (buildCounter_fst_aux ws [] (by simp)).2 x
  simp only [List.map_nil, List.not_mem_nil, false_or] at h
  exact h

theorem map_fst_filter_fst (q : List Char → Bool) (l : List (List Char × Nat)) :
    (l.filter (fun p => q p.1)).map Prod.fst = (l.map Prod.fst).filter q := by
  induction l with
  | nil => rfl
  | cons p rest ih =>
    by_cases hq : q p.1
    · simp [List.filter_cons, hq, ih]
    · simp [List.filter_cons, hq, ih]

theorem filteredWordFreq_length (text : List Char) :
    (filteredWordFreq text).length = qualifyingTokenCount text := by
  have h1 : ((filteredWordFreq text).map Prod.fst).Nodup := by
    rw [filteredWordFreq, map_fst_filter_fst]
    exact (buildCounter_fst_nodup _).filter _
  have h2 : (((topicWords text).filter isQualifying).dedup).Nodup :=
    List.nodup_dedup _
  have hmem : ∀ x, x ∈ (filteredWordFreq text).map Prod.fst
      ↔ x ∈ ((topicWords text).filter isQualifying).dedup := by
    intro x
    rw [filteredWordFreq, map_fst_filter_fst, List.mem_dedup, List.mem_filter,
      List.mem_filter, topicWordFreq, mem_buildCounter_fst]
  have hperm := (List.perm_ext_iff_of_nodup h1 h2).mpr hmem
  have hlen := hperm.length_eq
  rwa [List.length_map] at hlen

/-- C3: the topic list never exceeds K entries, and reaches exactly K whenever
the document has at least K distinct qualifying tokens (normalized tokens that
are not stop-words and are longer than 2 characters). -/
theorem extract_topics_count (text : List Char) (k : Nat) (hk : 1 ≤ k) :
    (extract_topics text k).length ≤ k
    ∧ (k ≤ qualifyingTokenCount text → (extract_topics text k).length = k) := by
  have hlen : (extract_topics text k).length
      = min k (filteredWordFreq text).length := by
    simp [extract_topics]
  constructor
  · rw [hlen]
    exact Nat.min_le_left _ _
  · intro hq
    rw [hlen]
    rw [filteredWordFreq_length]
    exact Nat.min_eq_left hq

theorem extract_topics_count_witness :
    (1 : Nat) ≤ 1
    ∧ ((extract_topics c8text 1).length ≤ 1
      ∧ (1 ≤ qualifyingTokenCount c8text → (extract_topics c8text 1).length = 1)) :=
  ⟨by decide, extract_topics_count c8text 1 (by decide)⟩

/-- C4: every extracted topic is a non-stop-word of length greater than 2, and
a document whose normalized tokens all fail that test yields no topics at all,
whatever K is. -/
theorem extract_topics_stopword_free (text : List Char) (k : Nat) (hk : 1 ≤ k) :
    (∀ w ∈ extract_topics text k, w ∉ stop_words ∧ 2 < w.length)
    ∧ ((∀ w ∈ topicWords text, w ∈ stop_words ∨ w.length ≤ 2) →
        extract_topics text k = []) := by
  constructor
  · intro w hw
    rw [extract_topics] at hw
    obtain ⟨p, hp, rfl⟩ := List.mem_map.mp hw
    have hp2 : p ∈ (filteredWordFreq text).insertionSort freqDescR :=
      List.take_subset _ _ hp
    have hp3 : p ∈ filteredWordFreq text := (List.mem_insertionSort _).mp hp2
    have hp4 := (List.mem_filter.mp hp3).2
    simpa [isQualifying] using hp4
  · intro hall
    have hnil : filteredWordFreq text = [] := by
      rw [filteredWordFreq, List.filter_eq_nil_iff]
      intro p hp
      have hm : p.1 ∈ topicWords text := by
        rw [← mem_buildCounter_fst]
        exact List.mem_map_of_mem Prod.fst hp
      have hfail := hall p.1 hm
      simp only [isQualifying, Bool.and_eq_true, decide_eq_true_eq, not_and]
      intro hns
      rcases hfail with h | h
      · exact absurd h hns
      · omega
    simp [extract_topics, hnil]

theorem extract_topics_stopword_free_witness :
    (1 : Nat) ≤ 1
    ∧ ((∀ w ∈ extract_topics c8text 1, w ∉ stop_words ∧ 2 < w.length)
      ∧ ((∀ w ∈ topicWords c8text, w ∈ stop_words ∨ w.length ≤ 2) →
          extract_topics c8text 1 = [])) :=
  ⟨by decide, extract_topics_stopword_free c8text 1 (by decide)⟩

theorem sentence_scores_getD (text : List Char) (i : Nat)
    (h : i < (processedSentences text).length) :
    (sentence_scores text).getD i (0, 0)
      = (i, sentenceScore (fallbackWordFreq text)
          ((processedSentences text).getD i [])) := by
  have hlen : i < (sentence_scores text).length := by
    simpa [sentence_scores] using h
  rw [List.getD_eq_getElem?_getD, List.getElem?_eq_getElem hlen]
  simp only [sentence_scores, List.getElem_map, List.getElem_enum, Option.getD_some]
  rw [List.getD_eq_getElem?_getD, List.getElem?_eq_getElem h, Option.getD_some]

/-- C5: each entry of `sentence_scores` pairs the sentence index with its
score; the score is the token-frequency sum divided by the token count exactly
when the count is positive, and a sentence with no tokens is scored as the raw
(empty) sum, which is 0 — the division is never taken with a zero count. -/
theorem fallback_score_guard (text : List Char) (i : Nat)
    (h : i < (processedSentences text).length) :
    (sentence_scores text).getD i (0, 0)
      = (i, sentenceScore (fallbackWordFreq text)
          ((processedSentences text).getD i []))
    ∧ (∀ freq : List (List Char × Nat), ∀ s : List Char,
        0 < (splitWs s).length →
          sentenceScore freq s
            = (((splitWs s).map (counterGet freq)).sum : ℚ)
                / ((splitWs s).length : ℚ))
    ∧ (∀ freq : List (List Char × Nat), ∀ s : List Char,
        splitWs s = [] → sentenceScore freq s = 0) := by
  refine ⟨sentence_scores_getD text i h, ?_, ?_⟩
  · intro freq s hs
    simp only [sentenceScore, if_pos hs]
  · intro freq s hs
    simp [sentenceScore, hs]

theorem fallback_score_guard_witness :
    0 < (processedSentences c8text).length
    ∧ ((sentence_scores c8text).getD 0 (0, 0)
        = (0, sentenceScore (fallbackWordFreq c8text)
            ((processedSentences c8text).getD 0 []))
      ∧ (∀ freq : List (List Char × Nat), ∀ s : List Char,
          0 < (splitWs s).length →
            sentenceScore freq s
              = (((splitWs s).map (counterGet freq)).sum : ℚ)
                  / ((splitWs s).length : ℚ))
      ∧ (∀ freq : List (List Char × Nat), ∀ s : List Char,
          splitWs s = [] → sentenceScore freq s = 0)) :=
  ⟨by decide, fallback_score_guard c8text 0 (by decide)⟩

theorem pyStrip_all_space (l : List Char) (h : ∀ c ∈ l, pyIsSpace c) :
    pyStrip l = [] := by
  have h1 : l.dropWhile pyIsSpace = [] := by
    rw [List.dropWhile_eq_nil_iff]
    exact h
  rw [pyStrip, h1]
  rfl

theorem splitWsAux_all_space (l : List Char) (h : ∀ c ∈ l, pyIsSpace c) :
    splitWsAux [] l = [] := by
  induction l with
  | nil => rfl
  | cons c rest ih =>
    have hc : pyIsSpace c := h c (List.mem_cons_self _ _)
    simp only [splitWsAux, if_pos hc, List.isEmpty_nil, if_true]
    exact ih (fun x hx => h x (List.mem_cons_of_mem _ hx))

theorem splitSentAux_pieces_space (rest : List Char) :
    ∀ prev cur : List Char, (∀ c ∈ cur, pyIsSpace c) → (∀ c ∈ rest, pyIsSpace c) →
      ∀ p ∈ splitSentAux prev cur rest, ∀ c ∈ p, pyIsSpace c := by
  induction rest with
  | nil =>
    intro prev cur hcur _ p hp c hc
    simp only [splitSentAux, List.mem_singleton] at hp
    subst hp
    exact hcur c (List.mem_reverse.mp hc)
  | cons a rest ih =>
    intro prev cur hcur hrest p hp
    have ha : pyIsSpace a := hrest a (List.mem_cons_self _ _)
    have hrest' : ∀ c ∈ rest, pyIsSpace c :=
      fun c hc => hrest c (List.mem_cons_of_mem _ hc)
    rw [splitSentAux] at hp
    by_cases hb : pyIsSpace a && boundaryOk prev
    · rw [if_pos hb] at hp
      rcases List.mem_cons.mp hp with rfl | hp'
      · exact fun c hc => hcur c (List.mem_reverse.mp hc)
      · exact ih (a :: prev) [] (by simp) hrest' p hp'
    · rw [if_neg hb] at hp
      refine ih (a :: prev) (a :: cur) ?_ hrest' p hp
      intro c hc
      rcases List.mem_cons.mp hc with rfl | hc'
      · exact ha
      · exact hcur c hc'

theorem split_into_sentences_all_space (text : List Char)
    (h : ∀ c ∈ text, pyIsSpace c) :
    split_into_sentences text = [] := by
  rw [split_into_sentences, List.filter_eq_nil_iff]
  intro s hs
  obtain ⟨p, hp, rfl⟩ := List.mem_map.mp hs
  have hps := splitSentAux_pieces_space text [] [] (by simp) h p hp
  simp [pyStrip_all_space p hps]

theorem pyIsSpace_toLower (c : Char) (h : pyIsSpace c) : c.toLower = c := by
  simp only [pyIsSpace, Bool.or_eq_true, decide_eq_true_eq] at h
  rcases h with ((((rfl | rfl) | rfl) | rfl) | rfl) | rfl <;> rfl

theorem topicWords_all_space (text : List Char) (h : ∀ c ∈ text, pyIsSpace c) :
    topicWords text = [] := by
  rw [topicWords, splitWs]
  apply splitWsAux_all_space
  intro c hc
  obtain ⟨hc1, _⟩ := List.mem_filter.mp hc
  obtain ⟨c0, hc0, rfl⟩ := List.mem_map.mp hc1
  rw [pyIsSpace_toLower c0 (h c0 hc0)]
  exact h c0 hc0

theorem extract_topics_all_space (text : List Char) (k : Nat)
    (h : ∀ c ∈ text, pyIsSpace c) :
    extract_topics text k = [] := by
  have h1 : filteredWordFreq text = [] := by
    rw [filteredWordFreq, topicWordFreq, topicWords_all_space text h]
    rfl
  simp [extract_topics, h1]

/-- C6: a zero-length or whitespace-only document produces empty outputs and
no error: no sentences, no topics, and the empty summary string, for every
positive N and K. -/
theorem empty_input_empty_outputs (text : List Char) (h : ∀ c ∈ text, pyIsSpace c)
    (n k : Nat) (hn : 1 ≤ n) (hk : 1 ≤ k) :
    split_into_sentences text = []
    ∧ extract_topics text k = []
    ∧ fallback_summarize text n = [] := by
  have hs := split_into_sentences_all_space text h
  refine ⟨hs, extract_topics_all_space text k h, ?_⟩
  simp [fallback_summarize, hs, joinSp]

theorem empty_input_empty_outputs_witness :
    (∀ c ∈ " \t ".data, pyIsSpace c)
    ∧ (1 : Nat) ≤ 1
    ∧ (split_into_sentences " \t ".data = []
      ∧ extract_topics " \t ".data 1 = []
      ∧ fallback_summarize " \t ".data 1 = []) :=
  ⟨by decide, by decide,
    empty_input_empty_outputs " \t ".data (by decide) 1 1 (by decide) (by decide)⟩

/-- C7 counterexample: called with count 0 (a value below 1) the code does not
reject or raise; both operations silently return ordinary degenerate values on
a rich document. -/
theorem invalid_count_not_rejected :
    fallback_summarize c7text 0 = [] ∧ extract_topics c7text 0 = [] := by
  exact ⟨by decide, by decide⟩

/-- C7 amended: the core performs no parameter validation: for
sentence_count = 0 or topic_count = 0 (below the documented minimum of 1),
`fallback_summarize` returns the empty string and `extract_topics` the empty
list for every document — silent degenerate results, not a rejection. -/
theorem invalid_count_silently_degenerate (text : List Char) :
    fallback_summarize text 0 = [] ∧ extract_topics text 0 = [] := by
  constructor
  · by_cases h : (split_into_sentences text).length ≤ 0
    · have hnil : split_into_sentences text = [] :=
        List.length_eq_zero.mp (Nat.le_zero.mp h)
      simp [fallback_summarize, hnil, joinSp]
    · simp [fallback_summarize, h, topSentences, joinSp]
  · simp [extract_topics]

/-- C8: on the documentation's concrete document, `extract_topics` with K = 2
returns exactly `["cat", "sat"]`. -/
theorem extract_topics_concrete :
    extract_topics c8text 2 = ["cat".data, "sat".data] := by
  decide

/-- C9: on the documentation's concrete document, `analyze_text` reports 6
words, 3 sentences, 2 words occurring exactly twice and none occurring three
or four times. -/
theorem analyze_concrete :
    (analyze_text c9text).totalWords = 6
    ∧ (analyze_text c9text).totalSentences = 3
    ∧ (analyze_text c9text).singleRepeated = 2
    ∧ (analyze_text c9text).doubleRepeated = 0
    ∧ (analyze_text c9text).tripleRepeated = 0 := by
  decide

/-- C10: `analyze_text` keys its frequency table on lowercased raw
whitespace-split tokens with no punctuation stripping: on `"world world."`
the tokens `"world"` and `"world."` are distinct keys with count 1 each, so
the exactly-twice counter is 0, while the punctuation-stripped comparison
counter is 1. -/
theorem analyze_no_punct_strip :
    analyzeWords c10text = ["world".data, "world.".data]
    ∧ counterGet (analyzeWordFreq c10text) "world".data = 1
    ∧ counterGet (analyzeWordFreq c10text) "world.".data = 1
    ∧ (analyze_text c10text).singleRepeated = 0
    ∧ strippedSingleRepeated c10text = 1 := by
  decide

end TexTra
